import Mathlib

/-!
Verification of the PTM-canonization core of vermouth-martinize.

The molecule and the reference patterns are attributed graphs
(`networkx.Graph` in the source).  We embed them as `Agraph`: an ordered
node list, an ordered edge list (both keep Python insertion order, which
networkx adjacency iteration follows) and a total attribute map.

Source files embedded here:
* `src/martinize2/processors/canonize_PTMs.py` (`semantic_feasibility`,
  `find_PTM_atoms`, `identify_ptms`, `allowed_ptms`, `fix_ptm`);
* the subgraph matcher (`vermouth/ismags.py`) is not shipped under `src/`;
  it is modelled from the spec together with the semantics pinned by its
  tests in `src/vermouth/tests/test_ismags.py`, which assert agreement with
  networkx's `GraphMatcher.subgraph_isomorphisms_iter` (node-induced
  subgraph isomorphisms).
-/

namespace Martinize

/-- Per-node attributes.  `ptm` is the `PTM_atom` flag (Python reads it with
`.get('PTM_atom', False)`, so a missing attribute is `false`, which the total
field models).  `modifications` stores the names of the applied patterns
(the Python code appends the pattern graph object; graphs are identified by
their graph-level `name`).  `graphSnap` models the `'graph'` provenance
attribute: the single-node context snapshotted before a rename, of which the
relevant datum is the pre-rename `atomname`. -/
structure NodeAttr where
  atomname : String := ""
  element : String := ""
  ptm : Bool := false
  rename : Option String := none
  resid : Int := 0
  modifications : List String := []
  graphSnap : Option String := none
deriving Repr, DecidableEq

/-- An attributed graph (`networkx.Graph`): explicitly added nodes, edges in
insertion order, a graph-level `name`, and per-node attributes. -/
structure Agraph where
  gname : String := ""
  nodes : List ℕ := []
  edges : List (ℕ × ℕ) := []
  attr : ℕ → NodeAttr := fun _ => {}

/-- Remove duplicates keeping the first occurrence of each element
(the order in which a networkx node/adjacency dict enumerates its keys). -/
def dedupF (seen : List ℕ) : List ℕ → List ℕ
  | [] => []
  | x :: xs => if x ∈ seen then dedupF seen xs else x :: dedupF (x :: seen) xs

/-- The node list of the graph: explicitly added nodes followed by edge
endpoints, first occurrence first — the iteration order of `for n in G`. -/
def nodeList (g : Agraph) : List ℕ :=
  dedupF [] (g.nodes ++ g.edges.flatMap (fun e => [e.1, e.2]))

/-- Neighbours of `u` in insertion order — the iteration order of
`G.adj[u]` / `G.neighbors(u)`. -/
def nbrs (g : Agraph) (u : ℕ) : List ℕ :=
  dedupF [] (g.edges.filterMap (fun e =>
    if e.1 = u then some e.2 else if e.2 = u then some e.1 else none))

/-- Undirected adjacency test. -/
def adjB (g : Agraph) (a b : ℕ) : Bool :=
  g.edges.any (fun e => (e.1 == a && e.2 == b) || (e.1 == b && e.2 == a))

/-- `PTMGraphMatcher.semantic_feasibility` (canonize_PTMs.py): `node1` lives
in the host `g1` (the found residue), `node2` in the pattern `g2`. -/
def semantic_feasibility (g1 g2 : Agraph) (node1 node2 : ℕ) : Bool :=
  let a1 := (g1.attr node1)
  let a2 := (g2.attr node2)
  if a1.ptm == a2.ptm then
    if a2.ptm then a1.element == a2.element
    else a1.atomname == a2.atomname
  else false

/-! ### The subgraph matcher

Modelled from the spec: `find_subgraphs(host, pattern, node_compat,
symmetry)` of the SymmetryAwareMatcher (`vermouth/ismags.py`, not under
`src/`).  A valid mapping assigns every pattern node an injective,
compatible host image; the tests in `src/vermouth/tests/test_ismags.py`
assert that the `symmetry=False` enumeration coincides with networkx's
`GraphMatcher.subgraph_isomorphisms_iter`, whose mappings are node-induced:
mapped host nodes are adjacent exactly when the corresponding pattern nodes
are.  A mapping is represented as the list of host images of
`nodeList pattern`, position by position. -/

/-- Host candidates for pattern node `p`, given the partial assignment `pp`
(pairs `(host image, pattern node)`): compatible, unused, and with adjacency
to every already-mapped pair mirroring the pattern (including self-loops). -/
def sgCandidates (host pattern : Agraph) (compat : ℕ → ℕ → Bool)
    (pp : List (ℕ × ℕ)) (p : ℕ) : List ℕ :=
  (nodeList host).filter (fun h =>
    compat h p && (adjB pattern p p == adjB host h h) &&
    pp.all (fun q => h ≠ q.1 && (adjB pattern p q.2 == adjB host h q.1)))

/-- Backtracking enumeration: extend the partial assignment `pp` over the
remaining pattern nodes `ps`, pruning as each node is placed. -/
def sgGo (host pattern : Agraph) (compat : ℕ → ℕ → Bool) :
    List (ℕ × ℕ) → List ℕ → List (List ℕ)
  | _, [] => [[]]
  | pp, p :: ps =>
    (sgCandidates host pattern compat pp p).flatMap
      (fun h => (sgGo host pattern compat ((h, p) :: pp) ps).map (fun t => h :: t))

/-- Modelled from the spec: `find_subgraphs(..., symmetry=False)` — all
node-induced subgraph isomorphisms of `pattern` into `host` under `compat`. -/
def findSubgraphsF (host pattern : Agraph) (compat : ℕ → ℕ → Bool) : List (List ℕ) :=
  sgGo host pattern compat [] (nodeList pattern)

/-- A valid mapping, stated directly: right length, injective, images are
compatible host nodes, and adjacency of images mirrors pattern adjacency
(node-induced isomorphism, the semantics the tests pin via networkx). -/
def ValidMapping (host pattern : Agraph) (compat : ℕ → ℕ → Bool) (m : List ℕ) : Prop :=
  m.length = (nodeList pattern).length ∧ m.Nodup ∧
  (∀ pr ∈ m.zip (nodeList pattern), pr.1 ∈ nodeList host ∧ compat pr.1 pr.2 = true) ∧
  (∀ pr ∈ m.zip (nodeList pattern), ∀ qr ∈ m.zip (nodeList pattern),
    adjB pattern pr.2 qr.2 = adjB host pr.1 qr.1)

instance (host pattern : Agraph) (compat : ℕ → ℕ → Bool) (m : List ℕ) :
    Decidable (ValidMapping host pattern compat m) := by
  unfold ValidMapping; infer_instance

/-- All injective `k`-tuples drawn from `pool`. -/
def injTuples (pool : List ℕ) : ℕ → List (List ℕ)
  | 0 => [[]]
  | k + 1 => pool.flatMap (fun h => (injTuples (pool.erase h) k).map (h :: ·))

/-- Independent brute-force subgraph-isomorphism search (node-induced
semantics): filter every injective tuple by `ValidMapping`. -/
def bruteForce (host pattern : Agraph) (compat : ℕ → ℕ → Bool) : List (List ℕ) :=
  (injTuples (nodeList host) (nodeList pattern).length).filter
    (fun m => decide (ValidMapping host pattern compat m))

/-- The mapping-validity notion in the claim's own words (spec §4.1): every
pattern edge maps to a host edge — a monomorphism, with no requirement that
non-adjacent pattern nodes land on non-adjacent host nodes. -/
def ValidMappingMono (host pattern : Agraph) (compat : ℕ → ℕ → Bool) (m : List ℕ) : Prop :=
  m.length = (nodeList pattern).length ∧ m.Nodup ∧
  (∀ pr ∈ m.zip (nodeList pattern), pr.1 ∈ nodeList host ∧ compat pr.1 pr.2 = true) ∧
  (∀ pr ∈ m.zip (nodeList pattern), ∀ qr ∈ m.zip (nodeList pattern),
    adjB pattern pr.2 qr.2 = true → adjB host pr.1 qr.1 = true)

instance (host pattern : Agraph) (compat : ℕ → ℕ → Bool) (m : List ℕ) :
    Decidable (ValidMappingMono host pattern compat m) := by
  unfold ValidMappingMono; infer_instance

/-- Brute-force search following the claim's words (monomorphism semantics). -/
def bruteForceMono (host pattern : Agraph) (compat : ℕ → ℕ → Bool) : List (List ℕ) :=
  (injTuples (nodeList host) (nodeList pattern).length).filter
    (fun m => decide (ValidMappingMono host pattern compat m))

/-! ### Symmetry reduction (claim C5 machinery)

Modelled from the spec: `find_subgraphs(..., symmetry=True)` returns exactly
one representative mapping per equivalence class of the unreduced result
under the automorphism group of the pattern.  We realize the representative
choice as the lexicographically least member of each class. -/

/-- Lexicographic comparison of mappings (image lists). -/
def lexLe : List ℕ → List ℕ → Bool
  | [], _ => true
  | _ :: _, [] => false
  | a :: as, b :: bs => if a < b then true else if b < a then false else lexLe as bs

/-- A permutation of the pattern-node positions is an automorphism of the
pattern when it preserves adjacency between the corresponding nodes. -/
def IsPatAuto (pattern : Agraph) (π : Equiv.Perm (Fin (nodeList pattern).length)) : Prop :=
  ∀ i j : Fin (nodeList pattern).length,
    adjB pattern ((nodeList pattern).get i) ((nodeList pattern).get j) =
    adjB pattern ((nodeList pattern).get (π i)) ((nodeList pattern).get (π j))

instance (pattern : Agraph) (π : Equiv.Perm (Fin (nodeList pattern).length)) :
    Decidable (IsPatAuto pattern π) := by
  unfold IsPatAuto; infer_instance

/-- Two mappings are equivalent when they differ only by an automorphism of
the pattern: `m'` sends each pattern node where `m` sends its image under
the automorphism. -/
def MapEquiv (pattern : Agraph) (m m' : List ℕ) : Prop :=
  ∃ π : Equiv.Perm (Fin (nodeList pattern).length),
    IsPatAuto pattern π ∧ ∀ i : Fin (nodeList pattern).length, m'.getD i 0 = m.getD (π i) 0

instance (pattern : Agraph) (m m' : List ℕ) : Decidable (MapEquiv pattern m m') := by
  unfold MapEquiv; infer_instance

/-- Modelled from the spec: `find_subgraphs(..., symmetry=True)` — keep, for
each automorphism-equivalence class of the unreduced enumeration, its
lexicographically least representative. -/
def findSubgraphsT (host pattern : Agraph) (compat : ℕ → ℕ → Bool) : List (List ℕ) :=
  (findSubgraphsF host pattern compat).filter (fun m =>
    (findSubgraphsF host pattern compat).all
      (fun m' => !(decide (MapEquiv pattern m m')) || lexLe m m'))

/-- Host graph of the C4 counterexample: the path `0 - 1 - 2`. -/
def cexHost : Agraph := { edges := [(0, 1), (1, 2)] }

/-- Pattern graph of the C4 counterexample: two isolated nodes. -/
def cexPat : Agraph := { nodes := [5, 6] }

/-- A single-edge graph used to instantiate general theorems. -/
def wEdge : Agraph := { edges := [(0, 1)] }

/-! ### The resolver `identify_ptms` (canonize_PTMs.py)

`residue_ptms` is the list of islands of the residue group, each a pair of
(PTM-atom set, anchor set); `options` is the ordered candidate pattern list.
The Python function either returns a list of `(pattern, match)` pairs or
raises `KeyError('Could not identify PTM')` (the spec's CoverageError); the
embedding adds an explicit out-of-fuel outcome for the recursion. -/

/-- The matches the code obtains from
`PTMGraphMatcher(residue, ptm).subgraph_isomorphisms_iter()` (networkx VF2,
node-induced subgraph isomorphisms under `semantic_feasibility`).  A match
is the list of residue nodes imaging `nodeList ptm`, so its key set — the
matched residue atoms — is the list itself. -/
def subgraphMatches (residue ptm : Agraph) : List (List ℕ) :=
  findSubgraphsF residue ptm (semantic_feasibility residue ptm)

/-- `allowed_ptms` filters the library to the patterns with at least one
subgraph embedding into the residue (its `subgraph_is_isomorphic` test). -/
def allowed_ptms (residue : Agraph) (known : List Agraph) : List Agraph :=
  known.filter (fun p => !(subgraphMatches residue p).isEmpty)

/-- The ordered candidate list built in `fix_ptm`: the allowed patterns
sorted by ascending pattern size (`len(opt[0])`, the node count). -/
def candidatePtms (residue : Agraph) (known : List Agraph) : List Agraph :=
  (allowed_ptms residue known).mergeSort
    (fun a b => (nodeList a).length ≤ (nodeList b).length)

/-- Result of the resolver: success, the `KeyError` of line 168
(CoverageError), or non-termination of the recursion (out of fuel). -/
inductive PtmResult where
  | ok : List (Agraph × List ℕ) → PtmResult
  | coverageError : PtmResult
  | outOfFuel : PtmResult

/-- Is the result the CoverageError? -/
def PtmResult.isCoverage : PtmResult → Bool
  | .coverageError => true
  | _ => false

/-- The union of the islands' remaining PTM-atom sets. -/
def groupAtoms (ptms : List (Finset ℕ × Finset ℕ)) : Finset ℕ :=
  ptms.foldr (fun rp acc => rp.1 ∪ acc) ∅

/-- The available atoms: every non-flagged residue node plus every
not-yet-consumed PTM atom of the group (lines 147-152). -/
def availableF (residue : Agraph) (ptms : List (Finset ℕ × Finset ℕ)) : Finset ℕ :=
  (nodeList residue).toFinset.filter (fun n => (residue.attr n).ptm = false) ∪ groupAtoms ptms

/-- Remove the matched atoms from every island (lines 162-164). -/
def consume (ptms : List (Finset ℕ × Finset ℕ)) (m : List ℕ) :
    List (Finset ℕ × Finset ℕ) :=
  ptms.map (fun rp => (rp.1 \ m.toFinset, rp.2))

/-- `identify_ptms` (lines 138-168).  Base case: every island exhausted.
Otherwise scan the options in order; for the first option having a match
whose key set is available, commit to that match greedily and recurse on
the optionos suffix starting at that same option (`options[idx:]`);
exhausting the options raises the error.  Fuel only bounds the recursion
depth; scanning an option also consumes one unit, which cannot change
which of `ok`/`coverageError` is reached, only how much fuel reaching it
takes, because the islands stay unchanged while scanning. -/
def identify_ptms (residue : Agraph) :
    ℕ → List (Finset ℕ × Finset ℕ) → List Agraph → PtmResult
  | 0, _, _ => .outOfFuel
  | _ + 1, ptms, [] =>
    if ptms.all (fun rp => rp.1 = ∅) then .ok [] else .coverageError
  | fuel + 1, ptms, o :: rest =>
    if ptms.all (fun rp => rp.1 = ∅) then .ok []
    else
      match (subgraphMatches residue o).find?
          (fun m => m.all (fun x => x ∈ availableF residue ptms)) with
      | some m =>
        match identify_ptms residue fuel (consume ptms m) (o :: rest) with
        | .ok l => .ok ((o, m) :: l)
        | e => e
      | none => identify_ptms residue fuel ptms rest

/-- The PTM atoms covered by a match: its key set restricted to the
flagged residue nodes. -/
def fpart (residue : Agraph) (m : List ℕ) : Finset ℕ :=
  m.toFinset.filter (fun x => (residue.attr x).ptm = true)

/-- The union of the PTM atoms covered by the accepted matches. -/
def coveredAtoms (residue : Agraph) (l : List (Agraph × List ℕ)) : Finset ℕ :=
  l.foldr (fun pm acc => fpart residue pm.2 ∪ acc) ∅

/-- A combination of candidate patterns that exactly covers the group's
unresolved atoms: each entry pairs a candidate with one of its matches,
the covered PTM-atom sets are pairwise disjoint, and together they equal
the group's unresolved-atom set. -/
def IsExactCover (residue : Agraph) (ptms : List (Finset ℕ × Finset ℕ))
    (opts : List Agraph) (sol : List (Agraph × List ℕ)) : Prop :=
  (∀ pm ∈ sol, pm.1 ∈ opts ∧ pm.2 ∈ subgraphMatches residue pm.1) ∧
  sol.Pairwise (fun a b => Disjoint (fpart residue a.2) (fpart residue b.2)) ∧
  coveredAtoms residue sol = groupAtoms ptms

/-! ### The canonicalizer (`fix_ptm`, lines 261-273) -/

/-- Replace the attributes of node `i`. -/
def setAttr (g : Agraph) (i : ℕ) (a : NodeAttr) : Agraph :=
  { g with attr := fun j => if j = i then a else g.attr j }

/-- Process one mapped pair `(mol_idx, ptm_idx)` (lines 263-270): if the
pattern node is flagged `PTM_atom` or carries a `rename`, snapshot the
node's single-node context and set its `atomname` to the pattern's
`rename`-or-`atomname`. -/
def applyPair (ptm : Agraph) (g : Agraph) (pr : ℕ × ℕ) : Agraph :=
  let pn := ptm.attr pr.2
  if pn.ptm || pn.rename.isSome then
    let old := g.attr pr.1
    setAttr g pr.1
      { old with graphSnap := some old.atomname,
                 atomname := pn.rename.getD pn.atomname }
  else g

/-- Apply one accepted match (lines 262-270) over all its mapped pairs. -/
def applyMatch (mol : Agraph) (ptm : Agraph) (m : List ℕ) : Agraph :=
  (m.zip (nodeList ptm)).foldl (applyPair ptm) mol

/-- Append one pattern name to one node's `modifications` list, creating
the list if absent (`.get('modifications', [])`, which the total default
`[]` models). -/
def appendOne (nm : String) (g : Agraph) (n : ℕ) : Agraph :=
  setAttr g n { g.attr n with modifications := (g.attr n).modifications ++ [nm] }

/-- Append the applied pattern to the `modifications` list of every node of
the residue group (lines 271-273). -/
def appendMods (g : Agraph) (nIdxs : List ℕ) (nm : String) : Agraph :=
  nIdxs.foldl (appendOne nm) g

/-- The application loop of `fix_ptm` over the identified matches of one
residue group: apply each match, then record it on every group node. -/
def applyIdentified (mol : Agraph) (nIdxs : List ℕ)
    (identified : List (Agraph × List ℕ)) : Agraph :=
  identified.foldl (fun g pm => appendMods (applyMatch g pm.1 pm.2) nIdxs pm.1.gname) mol

/-! ### `find_PTM_atoms` (lines 76-104) -/

/-- Breadth-first traversal emitting, for each visited node that has tree
children, the node paired with its list of children; nodes are marked
visited when enqueued.  The fuel `(nodeList g).length` dominates the number
of dequeue steps, since each node is enqueued at most once. -/
def bfsAux (g : Agraph) : ℕ → List ℕ → List ℕ → List (ℕ × List ℕ)
  | 0, _, _ => []
  | _ + 1, [], _ => []
  | fuel + 1, u :: q, vis =>
    let ch := (nbrs g u).filter (fun v => decide (v ∉ vis))
    let rest := bfsAux g fuel (q ++ ch) (vis ++ ch)
    if ch.isEmpty then rest else (u, ch) :: rest

/-- `networkx.bfs_successors(g, src)`: the parent/children groups of the
BFS tree edges.  The networkx generator ends with an unconditional
`yield (parent, children)`, so when the traversal produces no tree edge at
all — a source whose neighbours are all already visited, e.g. an isolated
node or one carrying only a self-loop — it still yields the single
degenerate pair `(source, [])`; with at least one tree edge, that final
yield emits the last parent together with its accumulated children, which
`bfsAux` already covers. -/
def bfs_successors (g : Agraph) (src : ℕ) : List (ℕ × List ℕ) :=
  match bfsAux g (nodeList g).length [src] [src] with
  | [] => [(src, [])]
  | l => l

/-- The body of the `for orig, succ in nx.bfs_successors(...)` loop of
`find_PTM_atoms`: walk the emitted pairs keeping the `to_see` frontier, the
collected PTM atoms and the anchors, breaking when the frontier empties.
`to_see.remove(orig)` raises `KeyError` when `orig` is not in the frontier;
that outcome is the `.error` case. -/
def islandGo (g : Agraph) (extra : List ℕ) :
    List (ℕ × List ℕ) → List ℕ → List ℕ → List ℕ → Except Unit (List ℕ × List ℕ)
  | [], _, atoms, anchors => .ok (atoms, anchors)
  | (orig, succ) :: rest, ts, atoms, anchors =>
    if orig ∈ ts then
      let ts' := ts.erase orig
      if orig ∈ extra then
        let ts2 := ts' ++ succ.filter (fun v => decide (v ∉ ts'))
        if ts2.isEmpty then .ok (atoms ++ [orig], anchors)
        else islandGo g extra rest ts2 (atoms ++ [orig]) anchors
      else
        if ts'.isEmpty then .ok (atoms, anchors ++ [orig])
        else islandGo g extra rest ts' atoms (anchors ++ [orig])
    else .error ()

/-- The outer `while extra_atoms` loop of `find_PTM_atoms`: pick the first
remaining flagged node as seed (the embedding's deterministic stand-in for
`next(iter(extra_atoms))`), traverse its island, remove the collected atoms
and append the island.  Fuel `none` models non-termination of the `while`
loop; a `KeyError` escaping the loop is the `.error` case. -/
def findGo (g : Agraph) : ℕ → List ℕ → Option (Except Unit (List (List ℕ × List ℕ)))
  | 0, _ => none
  | _ + 1, [] => some (.ok [])
  | fuel + 1, s :: extraRest =>
    match islandGo g (s :: extraRest) (bfs_successors g s) [s] [] [] with
    | .error e => some (.error e)
    | .ok (atoms, anchors) =>
      match findGo g fuel ((s :: extraRest).filter (fun v => decide (v ∉ atoms))) with
      | none => none
      | some (.error e) => some (.error e)
      | some (.ok rest) => some (.ok ((atoms, anchors) :: rest))

/-- `find_PTM_atoms(molecule)`: the flagged nodes, grouped into islands. -/
def find_PTM_atoms (g : Agraph) (fuel : ℕ) :
    Option (Except Unit (List (List ℕ × List ℕ))) :=
  findGo g fuel ((nodeList g).filter (fun n => (g.attr n).ptm))

/-! ### Concrete molecules and patterns -/

/-- The `N-terminus` pattern of `KNOWN_PTMS`. -/
def n_term : Agraph :=
  { gname := "N-terminus", edges := [(0, 1), (0, 2), (0, 3)],
    attr := fun n =>
      if n = 0 then { atomname := "N", element := "N" }
      else if n = 1 then { atomname := "HN", element := "H", rename := some "HN1" }
      else if n = 2 then { atomname := "HN2", element := "H", ptm := true }
      else { atomname := "HN3", element := "H", ptm := true } }

/-- The `C-terminus` pattern of `KNOWN_PTMS`. -/
def c_term : Agraph :=
  { gname := "C-terminus", edges := [(0, 1), (0, 2)],
    attr := fun n =>
      if n = 0 then { atomname := "C", element := "C" }
      else if n = 1 then { atomname := "O", element := "O", rename := some "OC1" }
      else { atomname := "OC2", element := "O", ptm := true } }

/-- The pattern library. -/
def KNOWN_PTMS : List Agraph := [n_term, c_term]

/-- Residue of the greedy counterexample: anchor `0` (atomname `A`) bonded
to a chain of three flagged atoms `1 - 2 - 3` of element `E`. -/
def rChain4 : Agraph :=
  { edges := [(0, 1), (1, 2), (2, 3)],
    attr := fun n =>
      if n = 0 then { atomname := "A", element := "C" }
      else { element := "E", ptm := true } }

/-- Two-node candidate: anchor `A` bonded to one flagged `E` atom. -/
def patSmall : Agraph :=
  { gname := "small", edges := [(10, 11)],
    attr := fun n =>
      if n = 10 then { atomname := "A", element := "C" }
      else { element := "E", ptm := true } }

/-- Four-node candidate: anchor `A` with a chain of three flagged `E`
atoms — the pattern that alone covers `rChain4` exactly. -/
def patBig : Agraph :=
  { gname := "big", edges := [(20, 21), (21, 22), (22, 23)],
    attr := fun n =>
      if n = 20 then { atomname := "A", element := "C" }
      else { element := "E", ptm := true } }

/-- A two-node residue: anchor `0` with one flagged atom `1`
(covered exactly by `patSmall`). -/
def rPair : Agraph :=
  { edges := [(0, 1)],
    attr := fun n =>
      if n = 0 then { atomname := "A", element := "C" }
      else { element := "E", ptm := true } }

/-- A residue with a single flagged atom and no anchors. -/
def rLone : Agraph :=
  { nodes := [5], attr := fun _ => { element := "E", ptm := true } }

/-- Molecule for the island-location bug: unflagged atom `0` bonded to the
flagged pair `1 - 2`. -/
def molChain : Agraph :=
  { edges := [(0, 1), (1, 2)],
    attr := fun n =>
      if n = 0 then { atomname := "CA", element := "C" }
      else { element := "X", ptm := true } }

/-- Molecule with one flagged node carrying only a self-loop. -/
def molLoop : Agraph := { edges := [(7, 7)], attr := fun _ => { ptm := true } }

/-- A residue realizing the N-terminus scenario: `N` bonded to `HN`, two
flagged hydrogens and the backbone `CA`. -/
def molN : Agraph :=
  { edges := [(0, 1), (0, 2), (0, 3), (0, 4)],
    attr := fun n =>
      if n = 0 then { atomname := "N", element := "N" }
      else if n = 1 then { atomname := "HN", element := "H" }
      else if n = 4 then { atomname := "CA", element := "C" }
      else { element := "H", ptm := true } }

/-! ### Basic lemmas on the graph embedding -/

theorem mem_dedupF (l : List ℕ) : ∀ (seen : List ℕ) (x : ℕ),
    x ∈ dedupF seen l ↔ x ∈ l ∧ x ∉ seen := by
  induction l with
  | nil => intro seen x; simp [dedupF]
  | cons a l ih =>
    intro seen x
    by_cases ha : a ∈ seen
    · rw [dedupF, if_pos ha, ih]
      constructor
      · rintro ⟨hx, hs⟩; exact ⟨List.mem_cons_of_mem _ hx, hs⟩
      · rintro ⟨hx, hs⟩
        rcases List.mem_cons.1 hx with rfl | hx
        · exact absurd ha hs
        · exact ⟨hx, hs⟩
    · rw [dedupF, if_neg ha]
      constructor
      · intro hx
        rcases List.mem_cons.1 hx with rfl | hx
        · exact ⟨List.mem_cons_self _ _, ha⟩
        · rcases (ih _ _).1 hx with ⟨h1, h2⟩
          refine ⟨List.mem_cons_of_mem _ h1, fun hc => h2 ?_⟩
          exact List.mem_cons_of_mem _ hc
      · rintro ⟨hx, hs⟩
        rcases List.mem_cons.1 hx with rfl | hx
        · exact List.mem_cons_self _ _
        · by_cases hxa : x = a
          · subst hxa; exact List.mem_cons_self _ _
          · exact List.mem_cons_of_mem _ ((ih _ _).2 ⟨hx, by
              intro hc; rcases List.mem_cons.1 hc with h | h
              · exact hxa h
              · exact hs h⟩)

theorem nodup_dedupF (l : List ℕ) : ∀ seen : List ℕ, (dedupF seen l).Nodup := by
  induction l with
  | nil => intro seen; simp [dedupF]
  | cons a l ih =>
    intro seen
    by_cases ha : a ∈ seen
    · rw [dedupF, if_pos ha]; exact ih seen
    · rw [dedupF, if_neg ha]
      refine List.nodup_cons.2 ⟨fun hc => ?_, ih _⟩
      exact ((mem_dedupF _ _ _).1 hc).2 (List.mem_cons_self _ _)

theorem nodeList_nodup (g : Agraph) : (nodeList g).Nodup := nodup_dedupF _ _

theorem adjB_comm (g : Agraph) (a b : ℕ) : adjB g a b = adjB g b a := by
  unfold adjB
  induction g.edges with
  | nil => rfl
  | cons e es ih =>
    simp only [List.any_cons, ih]
    cases h1 : (e.1 == a && e.2 == b) <;> cases h2 : (e.1 == b && e.2 == a) <;> simp [h1, h2]

/-! ### Matcher correctness: the backtracking search finds exactly the valid
mappings (claims C4/C5 machinery). -/

/-- Invariant characterizing membership in `sgGo`: the produced tail `t`
covers the remaining pattern nodes `ps`, is internally valid, and is
compatible with the already fixed partial assignment `pp`. -/
abbrev SgInv (host pattern : Agraph) (compat : ℕ → ℕ → Bool)
    (ps : List ℕ) (pp : List (ℕ × ℕ)) (t : List ℕ) : Prop :=
  t.length = ps.length ∧ t.Nodup ∧
  (∀ pr ∈ t.zip ps, pr.1 ∈ nodeList host ∧ compat pr.1 pr.2 = true) ∧
  (∀ pr ∈ t.zip ps, ∀ qr ∈ pp, pr.1 ≠ qr.1 ∧ adjB pattern pr.2 qr.2 = adjB host pr.1 qr.1) ∧
  (∀ pr ∈ t.zip ps, ∀ qr ∈ t.zip ps, adjB pattern pr.2 qr.2 = adjB host pr.1 qr.1)

theorem sgGo_mem (host pattern : Agraph) (compat : ℕ → ℕ → Bool) :
    ∀ (ps : List ℕ) (pp : List (ℕ × ℕ)) (t : List ℕ),
      t ∈ sgGo host pattern compat pp ps ↔ SgInv host pattern compat ps pp t := by
  intro ps
  induction ps with
  | nil =>
    intro pp t
    constructor
    · intro ht
      have : t = [] := by simpa [sgGo] using ht
      subst this
      refine ⟨rfl, List.nodup_nil, ?_, ?_, ?_⟩ <;> intro pr hpr <;> simp at hpr
    · rintro ⟨hl, -, -, -, -⟩
      have : t = [] := List.eq_nil_of_length_eq_zero hl
      subst this; simp [sgGo]
  | cons p ps ih =>
    intro pp t
    constructor
    · intro ht
      simp only [sgGo, List.mem_flatMap, List.mem_map] at ht
      obtain ⟨h, hcand, t', ht', rfl⟩ := ht
      simp only [sgCandidates, List.mem_filter, Bool.and_eq_true, List.all_eq_true,
        decide_eq_true_eq, beq_iff_eq] at hcand
      obtain ⟨hhost, ⟨hcompat, hself⟩, hall⟩ := hcand
      have hinv := (ih _ _).1 ht'
      obtain ⟨hl, hnd, hcm, hcross, hint⟩ := hinv
      have hfst : (t'.zip ps).map Prod.fst = t' := List.map_fst_zip _ _ (le_of_eq hl)
      have hmemfst : ∀ x ∈ t', ∃ pr ∈ t'.zip ps, pr.1 = x := by
        intro x hx
        rw [← hfst] at hx
        rcases List.mem_map.1 hx with ⟨pr, hpr, h1⟩
        exact ⟨pr, hpr, h1⟩
      have hne : h ∉ t' := by
        intro hc
        rcases hmemfst _ hc with ⟨pr, hpr, h1⟩
        exact ((hcross pr hpr ⟨h, p⟩ (List.mem_cons_self _ _)).1) (by simp [h1])
      refine ⟨by simpa using hl, List.nodup_cons.2 ⟨hne, hnd⟩, ?_, ?_, ?_⟩
      · intro pr hpr
        rw [List.zip_cons_cons, List.mem_cons] at hpr
        rcases hpr with rfl | hpr
        · exact ⟨hhost, hcompat⟩
        · exact hcm pr hpr
      · intro pr hpr qr hqr
        rw [List.zip_cons_cons, List.mem_cons] at hpr
        rcases hpr with rfl | hpr
        · exact ⟨(hall qr hqr).1, (hall qr hqr).2⟩
        · exact hcross pr hpr qr (List.mem_cons_of_mem _ hqr)
      · intro pr hpr qr hqr
        rw [List.zip_cons_cons, List.mem_cons] at hpr
        rw [List.zip_cons_cons, List.mem_cons] at hqr
        rcases hpr with rfl | hpr <;> rcases hqr with rfl | hqr
        · exact hself
        · have := (hcross qr hqr ⟨h, p⟩ (List.mem_cons_self _ _)).2
          rw [adjB_comm pattern p qr.2, adjB_comm host h qr.1]
          exact this
        · exact (hcross pr hpr ⟨h, p⟩ (List.mem_cons_self _ _)).2
        · exact hint pr hpr qr hqr
    · rintro ⟨hl, hnd, hcm, hcross, hint⟩
      match t, hl with
      | h :: t', hl =>
        have hl' : t'.length = ps.length := by simpa using hl
        have hzip : (h :: t').zip (p :: ps) = (h, p) :: t'.zip ps := List.zip_cons_cons
        have hhd : ((h, p) : ℕ × ℕ) ∈ (h :: t').zip (p :: ps) := by
          rw [hzip]; exact List.mem_cons_self _ _
        simp only [sgGo, List.mem_flatMap, List.mem_map]
        refine ⟨h, ?_, t', ?_, rfl⟩
        · simp only [sgCandidates, List.mem_filter, Bool.and_eq_true, List.all_eq_true,
            decide_eq_true_eq, beq_iff_eq]
          refine ⟨(hcm _ hhd).1, ⟨(hcm _ hhd).2, hint _ hhd _ hhd⟩, ?_⟩
          intro q hq
          exact ⟨(hcross _ hhd q hq).1, (hcross _ hhd q hq).2⟩
        · refine (ih _ _).2 ⟨hl', (List.nodup_cons.1 hnd).2, ?_, ?_, ?_⟩
          · intro pr hpr
            exact hcm pr (by rw [hzip]; exact List.mem_cons_of_mem _ hpr)
          · intro pr hpr qr hqr
            rcases List.mem_cons.1 hqr with rfl | hqr'
            · constructor
              · intro hc
                have hc' : pr.1 = h := hc
                apply (List.nodup_cons.1 hnd).1
                have hm : pr.1 ∈ (t'.zip ps).map Prod.fst := List.mem_map_of_mem _ hpr
                rw [List.map_fst_zip _ _ (le_of_eq hl')] at hm
                rwa [hc'] at hm
              · exact hint _ (by rw [hzip]; exact List.mem_cons_of_mem _ hpr) _ hhd
            · exact hcross pr (by rw [hzip]; exact List.mem_cons_of_mem _ hpr) qr hqr'
          · intro pr hpr qr hqr
            exact hint pr (by rw [hzip]; exact List.mem_cons_of_mem _ hpr)
              qr (by rw [hzip]; exact List.mem_cons_of_mem _ hqr)

theorem mem_findSubgraphsF (host pattern : Agraph) (compat : ℕ → ℕ → Bool) (m : List ℕ) :
    m ∈ findSubgraphsF host pattern compat ↔ ValidMapping host pattern compat m := by
  rw [findSubgraphsF, sgGo_mem]
  unfold SgInv ValidMapping
  constructor
  · rintro ⟨h1, h2, h3, -, h5⟩; exact ⟨h1, h2, h3, h5⟩
  · rintro ⟨h1, h2, h3, h5⟩
    exact ⟨h1, h2, h3, fun pr _ qr hqr => absurd hqr (List.not_mem_nil _), h5⟩

theorem mem_injTuples (x : List ℕ) : ∀ (k : ℕ) (pool : List ℕ), pool.Nodup →
    (x ∈ injTuples pool k ↔ x.length = k ∧ x.Nodup ∧ ∀ a ∈ x, a ∈ pool) := by
  intro k
  induction k generalizing x with
  | zero =>
    intro pool _
    constructor
    · intro hx
      have : x = [] := by simpa [injTuples] using hx
      subst this; simp
    · rintro ⟨hl, -, -⟩
      have : x = [] := List.eq_nil_of_length_eq_zero hl
      subst this; simp [injTuples]
  | succ k ih =>
    intro pool hpool
    constructor
    · intro hx
      rw [injTuples, List.mem_flatMap] at hx
      obtain ⟨h, hh, hx⟩ := hx
      rw [List.mem_map] at hx
      obtain ⟨t, ht, rfl⟩ := hx
      have := (ih t _ (hpool.erase h)).1 ht
      obtain ⟨hl, hnd, hsub⟩ := this
      refine ⟨by simpa using hl, List.nodup_cons.2 ⟨?_, hnd⟩, ?_⟩
      · intro hc
        have := hsub _ hc
        exact ((hpool.mem_erase_iff).1 this).1 rfl
      · intro a ha
        rcases List.mem_cons.1 ha with rfl | ha
        · exact hh
        · exact ((hpool.mem_erase_iff).1 (hsub _ ha)).2
    · rintro ⟨hl, hnd, hsub⟩
      match x, hl with
      | h :: t, hl =>
        rw [injTuples, List.mem_flatMap]
        refine ⟨h, hsub _ (List.mem_cons_self _ _), ?_⟩
        rw [List.mem_map]
        refine ⟨t, (ih t _ (hpool.erase h)).2 ⟨by simpa using hl, (List.nodup_cons.1 hnd).2, ?_⟩, rfl⟩
        intro a ha
        rw [hpool.mem_erase_iff]
        exact ⟨fun hc => (List.nodup_cons.1 hnd).1 (hc ▸ ha), hsub _ (List.mem_cons_of_mem _ ha)⟩

theorem mem_bruteForce (host pattern : Agraph) (compat : ℕ → ℕ → Bool) (m : List ℕ) :
    m ∈ bruteForce host pattern compat ↔ ValidMapping host pattern compat m := by
  rw [bruteForce, List.mem_filter, decide_eq_true_eq]
  constructor
  · rintro ⟨-, h⟩; exact h
  · intro h
    refine ⟨?_, h⟩
    rw [mem_injTuples _ _ _ (nodeList_nodup host)]
    obtain ⟨h1, h2, h3, -⟩ := h
    refine ⟨h1, h2, ?_⟩
    intro a ha
    have : a ∈ (m.zip (nodeList pattern)).map Prod.fst := by
      rw [List.map_fst_zip _ _ (le_of_eq h1)]; exact ha
    rcases List.mem_map.1 this with ⟨pr, hpr, rfl⟩
    exact (h3 pr hpr).1

/-- C4 (amended): for every host, pattern and node-compatibility predicate,
the symmetry-free enumeration `find_subgraphs(..., symmetry=False)` equals,
as a set of mappings, an independent brute-force search for node-induced
subgraph isomorphisms under the same predicate — the semantics the test
suite pins by comparing against networkx's
`GraphMatcher.subgraph_isomorphisms_iter`. -/
theorem find_subgraphs_eq_bruteForce (host pattern : Agraph) (compat : ℕ → ℕ → Bool) :
    (findSubgraphsF host pattern compat).toFinset = (bruteForce host pattern compat).toFinset := by
  ext m
  simp only [List.mem_toFinset, mem_findSubgraphsF, mem_bruteForce]

/-- C4 (counterexample): with the claim's own notion of valid mapping —
"every pattern edge maps to a host edge", with no induced-subgraph
condition — the brute-force set differs from the matcher's enumeration:
mapping the two non-adjacent pattern nodes onto the adjacent host pair
`(0, 1)` is a monomorphism but not a node-induced embedding, so the claimed
set equality fails. -/
theorem find_subgraphs_mono_counterexample :
    (findSubgraphsF cexHost cexPat (fun _ _ => true)).toFinset ≠
      (bruteForceMono cexHost cexPat (fun _ _ => true)).toFinset := by
  decide

/-! ### Lexicographic order on mappings -/

theorem lexLe_refl : ∀ l : List ℕ, lexLe l l = true := by
  intro l
  induction l with
  | nil => rfl
  | cons a as ih => simp [lexLe, ih]

theorem lexLe_total : ∀ a b : List ℕ, lexLe a b = true ∨ lexLe b a = true := by
  intro a
  induction a with
  | nil => intro b; left; rfl
  | cons x xs ih =>
    intro b
    cases b with
    | nil => right; rfl
    | cons y ys =>
      rcases Nat.lt_trichotomy x y with h | h | h
      · left; simp [lexLe, h]
      · subst h
        rcases ih ys with h' | h'
        · left; simpa [lexLe] using h'
        · right; simpa [lexLe] using h'
      · right; simp [lexLe, h]

theorem lexLe_antisymm : ∀ a b : List ℕ, lexLe a b = true → lexLe b a = true → a = b := by
  intro a
  induction a with
  | nil =>
    intro b h1 h2
    cases b with
    | nil => rfl
    | cons y ys => simp [lexLe] at h2
  | cons x xs ih =>
    intro b h1 h2
    cases b with
    | nil => simp [lexLe] at h1
    | cons y ys =>
      rcases Nat.lt_trichotomy x y with h | h | h
      · simp [lexLe, h, Nat.not_lt_of_lt h] at h2
      · subst h
        simp only [lexLe, lt_irrefl, if_false] at h1 h2
        rw [ih ys h1 h2]
      · simp [lexLe, h, Nat.not_lt_of_lt h] at h1

theorem lexLe_trans : ∀ a b c : List ℕ, lexLe a b = true → lexLe b c = true →
    lexLe a c = true := by
  intro a
  induction a with
  | nil => intro b c _ _; rfl
  | cons x xs ih =>
    intro b c h1 h2
    cases b with
    | nil => simp [lexLe] at h1
    | cons y ys =>
      cases c with
      | nil => simp [lexLe] at h2
      | cons z zs =>
        rcases Nat.lt_trichotomy x y with hxy | hxy | hxy
        · rcases Nat.lt_trichotomy y z with hyz | hyz | hyz
          · simp [lexLe, Nat.lt_trans hxy hyz]
          · subst hyz; simp [lexLe, hxy]
          · simp [lexLe, hyz, Nat.not_lt_of_lt hyz] at h2
        · subst hxy
          rcases Nat.lt_trichotomy x z with hyz | hyz | hyz
          · simp [lexLe, hyz]
          · subst hyz
            simp only [lexLe, lt_irrefl, if_false] at h1 h2 ⊢
            exact ih ys zs h1 h2
          · simp [lexLe, hyz, Nat.not_lt_of_lt hyz] at h2
        · simp [lexLe, hxy, Nat.not_lt_of_lt hxy] at h1

theorem exists_lexLe_min (l : List (List ℕ)) (hne : l ≠ []) :
    ∃ x ∈ l, ∀ y ∈ l, lexLe x y = true := by
  induction l with
  | nil => exact absurd rfl hne
  | cons a l ih =>
    cases l with
    | nil =>
      refine ⟨a, List.mem_cons_self _ _, ?_⟩
      intro y hy
      rcases List.mem_cons.1 hy with rfl | hy
      · exact lexLe_refl _
      · simp at hy
    | cons b l' =>
      obtain ⟨x, hx, hmin⟩ := ih (by simp)
      rcases lexLe_total a x with h | h
      · refine ⟨a, List.mem_cons_self _ _, ?_⟩
        intro y hy
        rcases List.mem_cons.1 hy with rfl | hy
        · exact lexLe_refl _
        · exact lexLe_trans _ _ _ h (hmin _ hy)
      · exact ⟨x, List.mem_cons_of_mem _ hx, fun y hy => by
          rcases List.mem_cons.1 hy with rfl | hy
          · exact h
          · exact hmin _ hy⟩

/-! ### The automorphism equivalence is an equivalence relation -/

theorem mapEquiv_refl (pattern : Agraph) (m : List ℕ) : MapEquiv pattern m m := by
  refine ⟨1, ?_, ?_⟩
  · intro i j; rfl
  · intro i; rfl

theorem mapEquiv_symm (pattern : Agraph) {m m' : List ℕ}
    (h : MapEquiv pattern m m') : MapEquiv pattern m' m := by
  obtain ⟨π, hauto, hmap⟩ := h
  refine ⟨π⁻¹, ?_, ?_⟩
  · intro i j
    have := hauto (π⁻¹ i) (π⁻¹ j)
    simpa using this.symm
  · intro i
    have := hmap (π⁻¹ i)
    simpa using this.symm

theorem mapEquiv_trans (pattern : Agraph) {m m' m'' : List ℕ}
    (h1 : MapEquiv pattern m m') (h2 : MapEquiv pattern m' m'') :
    MapEquiv pattern m m'' := by
  obtain ⟨π, hauto, hmap⟩ := h1
  obtain ⟨ρ, hauto', hmap'⟩ := h2
  refine ⟨π * ρ, ?_, ?_⟩
  · intro i j
    have ha := hauto' i j
    have hb := hauto (ρ i) (ρ j)
    rw [ha, hb]
    rfl
  · intro i
    rw [hmap' i, hmap (ρ i)]
    rfl

/-! ### Index-level facts about valid mappings -/

theorem valid_length {host pattern : Agraph} {compat : ℕ → ℕ → Bool} {m : List ℕ}
    (hv : ValidMapping host pattern compat m) : m.length = (nodeList pattern).length := hv.1

theorem valid_zip_get {host pattern : Agraph} {compat : ℕ → ℕ → Bool} {m : List ℕ}
    (hv : ValidMapping host pattern compat m) (i : Fin (nodeList pattern).length) :
    (m.getD i 0, (nodeList pattern).get i) ∈ m.zip (nodeList pattern) := by
  have hi : (i : ℕ) < m.length := by rw [valid_length hv]; exact i.isLt
  have hz : (i : ℕ) < (m.zip (nodeList pattern)).length := by
    rw [List.length_zip, valid_length hv]; simp
  have hmem := List.getElem_mem hz
  rw [List.getElem_zip] at hmem
  rw [List.getD_eq_getElem m 0 hi, List.get_eq_getElem]
  exact hmem

theorem valid_getD_mem {host pattern : Agraph} {compat : ℕ → ℕ → Bool} {m : List ℕ}
    (hv : ValidMapping host pattern compat m) (i : Fin (nodeList pattern).length) :
    m.getD i 0 ∈ nodeList host :=
  (hv.2.2.1 _ (valid_zip_get hv i)).1

theorem valid_getD_adj {host pattern : Agraph} {compat : ℕ → ℕ → Bool} {m : List ℕ}
    (hv : ValidMapping host pattern compat m) (i j : Fin (nodeList pattern).length) :
    adjB pattern ((nodeList pattern).get i) ((nodeList pattern).get j) =
      adjB host (m.getD i 0) (m.getD j 0) :=
  hv.2.2.2 _ (valid_zip_get hv i) _ (valid_zip_get hv j)

theorem valid_getD_inj {host pattern : Agraph} {compat : ℕ → ℕ → Bool} {m : List ℕ}
    (hv : ValidMapping host pattern compat m) (i j : Fin (nodeList pattern).length)
    (h : m.getD i 0 = m.getD j 0) : i = j := by
  have hi : (i : ℕ) < m.length := by rw [valid_length hv]; exact i.isLt
  have hj : (j : ℕ) < m.length := by rw [valid_length hv]; exact j.isLt
  rw [List.getD_eq_getElem m 0 hi, List.getD_eq_getElem m 0 hj] at h
  have hinj := List.nodup_iff_injective_get.1 hv.2.1
  have h2 : m.get ⟨i, hi⟩ = m.get ⟨j, hj⟩ := by simpa using h
  have h3 := hinj h2
  exact Fin.ext (by simpa using congrArg Fin.val h3)

/-- In a self-match (host and pattern are the same graph), any two valid
mappings differ by an automorphism of the pattern. -/
theorem self_match_all_equiv {g : Agraph} {compat : ℕ → ℕ → Bool} {m m' : List ℕ}
    (hm : ValidMapping g g compat m) (hm' : ValidMapping g g compat m') :
    MapEquiv g m m' := by
  classical
  set nl := nodeList g with hnl
  have mkF : ∀ {x : List ℕ}, ValidMapping g g compat x →
      { f : Fin nl.length → Fin nl.length //
        (∀ i, nl.get (f i) = x.getD i 0) ∧ Function.Injective f } := by
    intro x hx
    refine ⟨fun i => ⟨nl.indexOf (x.getD i 0), List.indexOf_lt_length.2 (valid_getD_mem hx i)⟩,
      fun i => ?_, fun i j hij => ?_⟩
    · simp only [List.get_eq_getElem]
      exact List.getElem_indexOf _
    · apply valid_getD_inj hx
      have := congrArg (fun z : Fin nl.length => nl.get z) hij
      simp only [List.get_eq_getElem, List.getElem_indexOf] at this
      exact this
  obtain ⟨f, hf, hfinj⟩ := mkF hm
  obtain ⟨f', hf', hfinj'⟩ := mkF hm'
  have hbij : Function.Bijective f := Finite.injective_iff_bijective.1 hfinj
  have hbij' : Function.Bijective f' := Finite.injective_iff_bijective.1 hfinj'
  let em : Fin nl.length ≃ Fin nl.length := Equiv.ofBijective f hbij
  let em' : Fin nl.length ≃ Fin nl.length := Equiv.ofBijective f' hbij'
  refine ⟨em'.trans em.symm, ?_, ?_⟩
  · intro i j
    have key : ∀ i : Fin nl.length, m.getD ((em'.trans em.symm) i) 0 = m'.getD i 0 := by
      intro i
      have h1 : f (em.symm (em' i)) = em' i := em.apply_symm_apply (em' i)
      have h2 : nl.get (f (em.symm (em' i))) = m.getD ((em'.trans em.symm) i) 0 :=
        hf (em.symm (em' i))
      have h3 : nl.get (f' i) = m'.getD i 0 := hf' i
      rw [← h2, h1]
      exact h3
    have ha := valid_getD_adj hm ((em'.trans em.symm) i) ((em'.trans em.symm) j)
    have hb := valid_getD_adj hm' i j
    rw [ha, key i, key j, ← hb]
  · intro i
    have h1 : f (em.symm (em' i)) = em' i := em.apply_symm_apply (em' i)
    have h2 : nl.get (f (em.symm (em' i))) = m.getD ((em'.trans em.symm) i) 0 :=
      hf (em.symm (em' i))
    have h3 : nl.get (f' i) = m'.getD i 0 := hf' i
    rw [← h3, ← h2, h1]
    rfl

/-- The identity assignment is a valid self-match whenever the predicate
accepts each node paired with itself. -/
theorem id_valid_self (g : Agraph) (compat : ℕ → ℕ → Bool)
    (hrefl : ∀ n ∈ nodeList g, compat n n = true) :
    ValidMapping g g compat (nodeList g) := by
  have hzip : ∀ pr ∈ (nodeList g).zip (nodeList g), pr.1 = pr.2 ∧ pr.1 ∈ nodeList g := by
    intro pr hpr
    rw [List.mem_iff_getElem] at hpr
    obtain ⟨i, hi, hpr⟩ := hpr
    rw [List.getElem_zip] at hpr
    have hi' : i < (nodeList g).length := by
      rw [List.length_zip] at hi; exact lt_of_lt_of_le hi (by simp)
    constructor
    · rw [← hpr]
    · rw [← hpr]; exact List.getElem_mem hi'
  refine ⟨rfl, nodeList_nodup g, ?_, ?_⟩
  · intro pr hpr
    obtain ⟨heq, hmem⟩ := hzip pr hpr
    exact ⟨hmem, by rw [heq] at hmem ⊢; exact hrefl _ hmem⟩
  · intro pr hpr qr hqr
    obtain ⟨h1, -⟩ := hzip pr hpr
    obtain ⟨h2, -⟩ := hzip qr hqr
    rw [h1, h2]

/-- The backtracking enumeration never produces the same mapping twice. -/
theorem sgGo_nodup (host pattern : Agraph) (compat : ℕ → ℕ → Bool) :
    ∀ (ps : List ℕ) (pp : List (ℕ × ℕ)), (sgGo host pattern compat pp ps).Nodup := by
  intro ps
  induction ps with
  | nil => intro pp; simp [sgGo]
  | cons p ps ih =>
    intro pp
    rw [sgGo, List.nodup_flatMap]
    constructor
    · intro h _
      exact (ih _).map (fun t1 t2 h12 => by injection h12)
    · have hcand : (sgCandidates host pattern compat pp p).Nodup :=
        (nodeList_nodup host).filter _
      refine List.Pairwise.imp ?_ hcand
      intro a b hab
      simp only [Function.onFun, List.disjoint_left]
      intro x hxa hxb
      rcases List.mem_map.1 hxa with ⟨t1, -, rfl⟩
      rcases List.mem_map.1 hxb with ⟨t2, -, h2⟩
      exact hab (by injection h2 with h _; exact h.symm)

theorem findSubgraphsF_nodup (host pattern : Agraph) (compat : ℕ → ℕ → Bool) :
    (findSubgraphsF host pattern compat).Nodup :=
  sgGo_nodup host pattern compat _ _

/-- A nodup list whose members all equal `a`, and which contains `a`,
is exactly `[a]`. -/
theorem nodup_all_eq_singleton {α : Type} {l : List α} {a : α} (hnd : l.Nodup)
    (hall : ∀ x ∈ l, x = a) (hmem : a ∈ l) : l = [a] := by
  cases l with
  | nil => simp at hmem
  | cons x l' =>
    have hx : x = a := hall _ (List.mem_cons_self _ _)
    subst hx
    cases l' with
    | nil => rfl
    | cons y l'' =>
      have hy : y = x := hall _ (List.mem_cons_of_mem _ (List.mem_cons_self _ _))
      subst hy
      exact absurd (List.mem_cons_self _ _) (List.nodup_cons.1 hnd).1

/-- C5: `find_subgraphs(..., symmetry=True)` is a subset of the
`symmetry=False` result; each unreduced mapping has exactly one
equivalent representative in the reduced result (one representative per
automorphism-equivalence class); and matching a graph against itself
(with a predicate accepting each node against itself, as the standard
attribute-equality predicates do) yields exactly one mapping. -/
theorem find_subgraphs_symmetry_reduction (host pattern : Agraph) (compat : ℕ → ℕ → Bool) :
    (∀ m ∈ findSubgraphsT host pattern compat, m ∈ findSubgraphsF host pattern compat)
    ∧ (∀ m ∈ findSubgraphsF host pattern compat,
        ∃! m', m' ∈ findSubgraphsT host pattern compat ∧ MapEquiv pattern m m')
    ∧ (host = pattern → (∀ n ∈ nodeList host, compat n n = true) →
        (findSubgraphsT host pattern compat).length = 1) := by
  have hTmem : ∀ m, m ∈ findSubgraphsT host pattern compat ↔
      m ∈ findSubgraphsF host pattern compat ∧
      ∀ m' ∈ findSubgraphsF host pattern compat,
        MapEquiv pattern m m' → lexLe m m' = true := by
    intro m
    rw [findSubgraphsT, List.mem_filter, List.all_eq_true]
    constructor
    · rintro ⟨h1, h2⟩
      refine ⟨h1, fun m' hm' heq => ?_⟩
      have := h2 m' hm'
      rcases Bool.or_eq_true_iff.1 this with h | h
      · rw [Bool.not_eq_true', decide_eq_false_iff_not] at h
        exact absurd heq h
      · exact h
    · rintro ⟨h1, h2⟩
      refine ⟨h1, fun m' hm' => ?_⟩
      by_cases heq : MapEquiv pattern m m'
      · rw [Bool.or_eq_true_iff]; right; exact h2 m' hm' heq
      · rw [Bool.or_eq_true_iff]; left
        rw [Bool.not_eq_true', decide_eq_false_iff_not]
        exact heq
  refine ⟨fun m hm => ((hTmem m).1 hm).1, ?_, ?_⟩
  · intro m hm
    -- the equivalence class of m inside the unreduced result
    set cls := (findSubgraphsF host pattern compat).filter
      (fun m' => decide (MapEquiv pattern m m')) with hcls
    have hclsmem : ∀ x, x ∈ cls ↔
        x ∈ findSubgraphsF host pattern compat ∧ MapEquiv pattern m x := by
      intro x
      rw [hcls, List.mem_filter, decide_eq_true_eq]
    have hmcls : m ∈ cls := (hclsmem m).2 ⟨hm, mapEquiv_refl pattern m⟩
    obtain ⟨m₀, hm₀cls, hm₀min⟩ := exists_lexLe_min cls (by
      intro h; rw [h] at hmcls; simp at hmcls)
    obtain ⟨hm₀F, hm₀eq⟩ := (hclsmem m₀).1 hm₀cls
    refine ⟨m₀, ⟨?_, hm₀eq⟩, ?_⟩
    · rw [hTmem]
      refine ⟨hm₀F, fun m' hm' heq => ?_⟩
      have hm'cls : m' ∈ cls := (hclsmem m').2 ⟨hm', mapEquiv_trans pattern hm₀eq heq⟩
      exact hm₀min _ hm'cls
    · rintro y ⟨hyT, hyeq⟩
      obtain ⟨hyF, hymin⟩ := (hTmem y).1 hyT
      have hy0 : MapEquiv pattern y m₀ :=
        mapEquiv_trans pattern (mapEquiv_symm pattern hyeq) hm₀eq
      have h1 : lexLe y m₀ = true := hymin _ hm₀F hy0
      have hycls : y ∈ cls := (hclsmem y).2 ⟨hyF, hyeq⟩
      have h2 : lexLe m₀ y = true := hm₀min _ hycls
      exact lexLe_antisymm _ _ h1 h2
  · rintro rfl hrefl
    have hid : nodeList host ∈ findSubgraphsF host host compat :=
      (mem_findSubgraphsF _ _ _ _).2 (id_valid_self host compat hrefl)
    have hFne : findSubgraphsF host host compat ≠ [] := fun h => by
      rw [h] at hid; simp at hid
    obtain ⟨m₀, hm₀F, hm₀min⟩ := exists_lexLe_min _ hFne
    have hm₀T : m₀ ∈ findSubgraphsT host host compat := by
      rw [hTmem]
      exact ⟨hm₀F, fun m' hm' _ => hm₀min _ hm'⟩
    have hall : ∀ x ∈ findSubgraphsT host host compat, x = m₀ := by
      intro x hx
      obtain ⟨hxF, hxmin⟩ := (hTmem x).1 hx
      have hequiv : MapEquiv host x m₀ :=
        self_match_all_equiv ((mem_findSubgraphsF _ _ _ _).1 hxF)
          ((mem_findSubgraphsF _ _ _ _).1 hm₀F)
      have h1 : lexLe x m₀ = true := hxmin _ hm₀F hequiv
      have h2 : lexLe m₀ x = true := hm₀min _ hxF
      exact lexLe_antisymm _ _ h1 h2
    have hTnd : (findSubgraphsT host host compat).Nodup :=
      (findSubgraphsF_nodup host host compat).filter _
    rw [nodup_all_eq_singleton hTnd hall hm₀T]
    rfl

/-- C5 witness: matching the single-edge graph against itself under the
trivial predicate — the reduced result is inside the unreduced one, the
mapping `[1, 0]` has exactly one equivalent representative, and the
self-match yields exactly one mapping. -/
theorem find_subgraphs_symmetry_reduction_witness :
    (∀ m ∈ findSubgraphsT wEdge wEdge (fun _ _ => true),
       m ∈ findSubgraphsF wEdge wEdge (fun _ _ => true))
    ∧ (∃! m', m' ∈ findSubgraphsT wEdge wEdge (fun _ _ => true) ∧
        MapEquiv wEdge [1, 0] m')
    ∧ (findSubgraphsT wEdge wEdge (fun _ _ => true)).length = 1 :=
  ⟨(find_subgraphs_symmetry_reduction wEdge wEdge (fun _ _ => true)).1,
   (find_subgraphs_symmetry_reduction wEdge wEdge (fun _ _ => true)).2.1 [1, 0] (by decide),
   (find_subgraphs_symmetry_reduction wEdge wEdge (fun _ _ => true)).2.2 rfl (by decide)⟩

/-! ### Claim C6: the compatibility predicate -/

/-- C6: the standard compatibility predicate returns false when the two
nodes' `PTM_atom` flags differ; when both flags are true it holds exactly
when the `element` attributes agree; when both are false it holds exactly
when the `atomname` attributes agree. -/
theorem semantic_feasibility_spec (g1 g2 : Agraph) (n1 n2 : ℕ) :
    ((g1.attr n1).ptm ≠ (g2.attr n2).ptm → semantic_feasibility g1 g2 n1 n2 = false)
    ∧ ((g1.attr n1).ptm = true → (g2.attr n2).ptm = true →
        (semantic_feasibility g1 g2 n1 n2 = true ↔
          (g1.attr n1).element = (g2.attr n2).element))
    ∧ ((g1.attr n1).ptm = false → (g2.attr n2).ptm = false →
        (semantic_feasibility g1 g2 n1 n2 = true ↔
          (g1.attr n1).atomname = (g2.attr n2).atomname)) := by
  refine ⟨fun hne => ?_, fun h1 h2 => ?_, fun h1 h2 => ?_⟩
  · simp only [semantic_feasibility]
    rw [if_neg (fun hc => hne (beq_iff_eq.mp hc))]
  · simp only [semantic_feasibility]
    rw [if_pos (by rw [h1, h2]; rfl), if_pos h2]
    exact beq_iff_eq
  · simp only [semantic_feasibility]
    rw [if_pos (by rw [h1, h2]; rfl), if_neg (by rw [h2]; simp)]
    exact beq_iff_eq

/-- C6 witness: concrete evaluations on the residue `rChain4` against the
pattern `patSmall` — differing flags give `false`; two flagged nodes
compare elements; two unflagged nodes compare atomnames. -/
theorem semantic_feasibility_spec_witness :
    semantic_feasibility rChain4 patSmall 1 10 = false
    ∧ (semantic_feasibility rChain4 patSmall 1 11 = true ↔
        (rChain4.attr 1).element = (patSmall.attr 11).element)
    ∧ (semantic_feasibility rChain4 patSmall 0 10 = true ↔
        (rChain4.attr 0).atomname = (patSmall.attr 10).atomname) :=
  ⟨(semantic_feasibility_spec rChain4 patSmall 1 10).1 (by decide),
   (semantic_feasibility_spec rChain4 patSmall 1 11).2.1 (by decide) (by decide),
   (semantic_feasibility_spec rChain4 patSmall 0 10).2.2 (by decide) (by decide)⟩

/-! ### Claims C1/C2/C9: the resolver -/

theorem mem_groupAtoms (ptms : List (Finset ℕ × Finset ℕ)) (x : ℕ) :
    x ∈ groupAtoms ptms ↔ ∃ rp ∈ ptms, x ∈ rp.1 := by
  induction ptms with
  | nil => simp [groupAtoms]
  | cons rp ptms ih =>
    simp only [groupAtoms, List.foldr_cons, Finset.mem_union, List.mem_cons]
    rw [groupAtoms] at ih
    rw [ih]
    constructor
    · rintro (h | ⟨rq, hrq, hx⟩)
      · exact ⟨rp, Or.inl rfl, h⟩
      · exact ⟨rq, Or.inr hrq, hx⟩
    · rintro ⟨rq, rfl | hrq, hx⟩
      · exact Or.inl hx
      · exact Or.inr ⟨rq, hrq, hx⟩

theorem groupAtoms_of_all_empty {ptms : List (Finset ℕ × Finset ℕ)}
    (h : ∀ rp ∈ ptms, rp.1 = ∅) : groupAtoms ptms = ∅ := by
  ext x
  simp only [mem_groupAtoms, Finset.not_mem_empty, iff_false]
  rintro ⟨rp, hrp, hx⟩
  rw [h rp hrp] at hx
  simp at hx

theorem groupAtoms_consume (ptms : List (Finset ℕ × Finset ℕ)) (m : List ℕ) :
    groupAtoms (consume ptms m) = groupAtoms ptms \ m.toFinset := by
  induction ptms with
  | nil => simp [groupAtoms, consume]
  | cons rp ptms ih =>
    simp only [consume, List.map_cons, groupAtoms, List.foldr_cons] at ih ⊢
    rw [ih, Finset.union_sdiff_distrib]

theorem fpart_subset_covered {residue : Agraph} {l : List (Agraph × List ℕ)}
    {pm : Agraph × List ℕ} (h : pm ∈ l) :
    fpart residue pm.2 ⊆ coveredAtoms residue l := by
  induction l with
  | nil => simp at h
  | cons q l ih =>
    rcases List.mem_cons.1 h with rfl | h
    · simp only [coveredAtoms, List.foldr_cons]
      exact Finset.subset_union_left
    · simp only [coveredAtoms, List.foldr_cons]
      exact (ih h).trans Finset.subset_union_right

theorem mem_coveredAtoms (residue : Agraph) (l : List (Agraph × List ℕ)) (x : ℕ) :
    x ∈ coveredAtoms residue l ↔ ∃ pm ∈ l, x ∈ fpart residue pm.2 := by
  induction l with
  | nil => simp [coveredAtoms]
  | cons q l ih =>
    simp only [coveredAtoms, List.foldr_cons, Finset.mem_union, List.mem_cons]
    rw [coveredAtoms] at ih
    rw [ih]
    constructor
    · rintro (h | ⟨pm, hpm, hx⟩)
      · exact ⟨q, Or.inl rfl, h⟩
      · exact ⟨pm, Or.inr hpm, hx⟩
    · rintro ⟨pm, rfl | hpm, hx⟩
      · exact Or.inl hx
      · exact Or.inr ⟨pm, hpm, hx⟩

/-- Soundness of every successful resolver run: each accepted pair is one
of the candidates with one of its matches, the covered PTM-atom sets are
pairwise disjoint, and together they exactly exhaust the group's islands. -/
theorem identify_ptms_ok_spec (residue : Agraph) :
    ∀ (fuel : ℕ) (ptms : List (Finset ℕ × Finset ℕ)) (opts : List Agraph)
      (l : List (Agraph × List ℕ)),
      (∀ rp ∈ ptms, ∀ x ∈ rp.1, (residue.attr x).ptm = true) →
      identify_ptms residue fuel ptms opts = .ok l →
      (∀ pm ∈ l, pm.1 ∈ opts ∧ pm.2 ∈ subgraphMatches residue pm.1) ∧
      l.Pairwise (fun a b => Disjoint (fpart residue a.2) (fpart residue b.2)) ∧
      coveredAtoms residue l = groupAtoms ptms := by
  intro fuel
  induction fuel with
  | zero => intro ptms opts l _ hok; exact absurd hok (by simp [identify_ptms])
  | succ fuel ih =>
    intro ptms opts l hflag hok
    cases opts with
    | nil =>
      simp only [identify_ptms] at hok
      split at hok
      case isTrue hbase =>
        cases hok
        refine ⟨by simp, by simp, ?_⟩
        rw [groupAtoms_of_all_empty (fun rp hrp => by
          have := (List.all_eq_true.1 hbase) rp hrp
          exact of_decide_eq_true this)]
        simp [coveredAtoms]
      case isFalse => simp at hok
    | cons o rest =>
      simp only [identify_ptms] at hok
      split at hok
      case isTrue hbase =>
        cases hok
        refine ⟨by simp, by simp, ?_⟩
        rw [groupAtoms_of_all_empty (fun rp hrp => by
          have := (List.all_eq_true.1 hbase) rp hrp
          exact of_decide_eq_true this)]
        simp [coveredAtoms]
      case isFalse hbase =>
        split at hok
        case h_1 m hfind =>
          have hm_mem : m ∈ subgraphMatches residue o := List.mem_of_find?_eq_some hfind
          have hm_av : ∀ x ∈ m, x ∈ availableF residue ptms := by
            have := List.find?_some hfind
            rw [List.all_eq_true] at this
            intro x hx
            exact of_decide_eq_true (this x hx)
          have hflag' : ∀ rp ∈ consume ptms m, ∀ x ∈ rp.1, (residue.attr x).ptm = true := by
            intro rp' hrp' x hx
            obtain ⟨rp, hrp, rfl⟩ := List.mem_map.1 hrp'
            exact hflag rp hrp x (Finset.mem_sdiff.1 hx).1
          have hsub : fpart residue m ⊆ groupAtoms ptms := by
            intro x hx
            rw [fpart, Finset.mem_filter] at hx
            obtain ⟨hxm, hxf⟩ := hx
            have := hm_av x (List.mem_toFinset.1 hxm)
            rw [availableF, Finset.mem_union] at this
            rcases this with h | h
            · rw [Finset.mem_filter] at h
              rw [h.2] at hxf
              exact absurd hxf (by simp)
            · exact h
          have hcap : ∀ x ∈ groupAtoms ptms, x ∈ m.toFinset → x ∈ fpart residue m := by
            intro x hg hm
            rw [fpart, Finset.mem_filter]
            obtain ⟨rp, hrp, hx⟩ := (mem_groupAtoms ptms x).1 hg
            exact ⟨hm, hflag rp hrp x hx⟩
          split at hok
          case h_1 l' hrec =>
            cases hok
            obtain ⟨ih1, ih2, ih3⟩ := ih (consume ptms m) (o :: rest) l' hflag' hrec
            have hcov' : coveredAtoms residue l' = groupAtoms ptms \ m.toFinset := by
              rw [ih3, groupAtoms_consume]
            refine ⟨?_, ?_, ?_⟩
            · intro pm hpm
              rcases List.mem_cons.1 hpm with rfl | hpm
              · exact ⟨List.mem_cons_self _ _, hm_mem⟩
              · exact ih1 pm hpm
            · rw [List.pairwise_cons]
              refine ⟨?_, ih2⟩
              intro pm hpm
              rw [Finset.disjoint_left]
              intro x hx hx'
              have h1 : x ∈ m.toFinset := (Finset.mem_filter.1 hx).1
              have h2 : x ∈ coveredAtoms residue l' := fpart_subset_covered hpm hx'
              rw [hcov', Finset.mem_sdiff] at h2
              exact h2.2 h1
            · have : coveredAtoms residue ((o, m) :: l') =
                  fpart residue m ∪ coveredAtoms residue l' := by
                simp [coveredAtoms]
              rw [this, hcov']
              ext x
              rw [Finset.mem_union, Finset.mem_sdiff]
              constructor
              · rintro (h | ⟨h, -⟩)
                · exact hsub h
                · exact h
              · intro h
                by_cases hx : x ∈ m.toFinset
                · exact Or.inl (hcap x h hx)
                · exact Or.inr ⟨h, hx⟩
          case h_2 e he hne =>
            exact absurd hok (hne l)
        case h_2 hfind =>
          obtain ⟨ih1, ih2, ih3⟩ := ih ptms rest l hflag hok
          exact ⟨fun pm hpm =>
            ⟨List.mem_cons_of_mem _ (ih1 pm hpm).1, (ih1 pm hpm).2⟩, ih2, ih3⟩

/-- C1: whenever the resolver returns successfully, the PTM atoms covered
by the returned matches are pairwise disjoint and their union equals
exactly the group's full unresolved-atom set (the union of the islands'
flagged-atom sets handed to `identify_ptms`, all of whose members carry
`PTM_atom=true`): no unresolved atom is left uncovered and none is covered
twice. -/
theorem identify_ptms_exact_partition (residue : Agraph) (fuel : ℕ)
    (ptms : List (Finset ℕ × Finset ℕ)) (opts : List Agraph)
    (l : List (Agraph × List ℕ))
    (hflag : ∀ rp ∈ ptms, ∀ x ∈ rp.1, (residue.attr x).ptm = true)
    (hok : identify_ptms residue fuel ptms opts = .ok l) :
    l.Pairwise (fun a b => Disjoint (fpart residue a.2) (fpart residue b.2)) ∧
    coveredAtoms residue l = groupAtoms ptms :=
  ⟨(identify_ptms_ok_spec residue fuel ptms opts l hflag hok).2.1,
   (identify_ptms_ok_spec residue fuel ptms opts l hflag hok).2.2⟩

/-- C1 witness: the two-atom residue `rPair` with its single island is
resolved by `patSmall` alone, and the returned match exactly covers the
island. -/
theorem identify_ptms_exact_partition_witness :
    ([(patSmall, [0, 1])] : List (Agraph × List ℕ)).Pairwise
      (fun a b => Disjoint (fpart rPair a.2) (fpart rPair b.2)) ∧
    coveredAtoms rPair [(patSmall, [0, 1])] = groupAtoms [({1}, {0})] :=
  identify_ptms_exact_partition rPair 3 [({1}, {0})] [patSmall] [(patSmall, [0, 1])]
    (by decide) (by rfl)

/-- C2 (amended): if no combination of candidate patterns exactly covers
the group's unresolved atoms, the resolver can never return successfully —
whenever its recursion terminates it raises CoverageError. -/
theorem identify_ptms_error_complete (residue : Agraph)
    (ptms : List (Finset ℕ × Finset ℕ)) (opts : List Agraph)
    (hflag : ∀ rp ∈ ptms, ∀ x ∈ rp.1, (residue.attr x).ptm = true)
    (hnone : ∀ sol, ¬ IsExactCover residue ptms opts sol)
    (fuel : ℕ) (l : List (Agraph × List ℕ)) :
    identify_ptms residue fuel ptms opts ≠ .ok l := by
  intro hok
  obtain ⟨h1, h2, h3⟩ := identify_ptms_ok_spec residue fuel ptms opts l hflag hok
  exact hnone l ⟨h1, h2, h3⟩

/-- C2 witness: a residue whose lone flagged atom cannot be covered by the
empty candidate list; the resolver cannot succeed on it. -/
theorem identify_ptms_error_complete_witness :
    identify_ptms rLone 3 [({5}, ∅)] [] ≠ .ok [] := by
  refine identify_ptms_error_complete rLone [({5}, ∅)] [] (by decide) ?_ 3 []
  rintro sol ⟨hmem, -, hcov⟩
  have h5 : (5 : ℕ) ∈ coveredAtoms rLone sol := by
    rw [hcov]; decide
  obtain ⟨pm, hpm, -⟩ := (mem_coveredAtoms rLone sol 5).1 h5
  exact List.not_mem_nil _ (hmem pm hpm).1

/-- C2 counterexample: the claim's converse fails — CoverageError can be
raised although a covering combination exists.  On `rChain4` with the
ordered candidates `[patSmall, patBig]`, the resolver greedily commits to
the only match of `patSmall`, dead-ends, and raises; yet `patBig` alone
exactly covers the island. -/
theorem identify_ptms_greedy_counterexample :
    (identify_ptms rChain4 9 [({1, 2, 3}, {0})] [patSmall, patBig]).isCoverage = true ∧
    IsExactCover rChain4 [({1, 2, 3}, {0})] [patSmall, patBig] [(patBig, [0, 1, 2, 3])] := by
  refine ⟨by decide, ?_, ?_, ?_⟩
  · intro pm hpm
    rcases List.mem_cons.1 hpm with rfl | hpm
    · exact ⟨List.mem_cons_of_mem _ (List.mem_cons_self _ _), by decide⟩
    · simp at hpm
  · simp
  · decide

/-- The positions at which the resolver's accepted patterns sit in the
candidate list are non-decreasing: each recursive step restarts the scan at
the option it just committed to (`options[idx:]`), never at an earlier one. -/
theorem identify_ptms_indices (residue : Agraph) :
    ∀ (fuel : ℕ) (ptms : List (Finset ℕ × Finset ℕ)) (opts : List Agraph)
      (l : List (Agraph × List ℕ)),
      identify_ptms residue fuel ptms opts = .ok l →
      ∃ idxs : List ℕ, idxs.Chain' (· ≤ ·) ∧
        List.Forall₂ (fun i (pm : Agraph × List ℕ) => opts.get? i = some pm.1) idxs l := by
  intro fuel
  induction fuel with
  | zero => intro ptms opts l hok; exact absurd hok (by simp [identify_ptms])
  | succ fuel ih =>
    intro ptms opts l hok
    cases opts with
    | nil =>
      simp only [identify_ptms] at hok
      split at hok
      case isTrue => cases hok; exact ⟨[], List.chain'_nil, List.Forall₂.nil⟩
      case isFalse => simp at hok
    | cons o rest =>
      simp only [identify_ptms] at hok
      split at hok
      case isTrue => cases hok; exact ⟨[], List.chain'_nil, List.Forall₂.nil⟩
      case isFalse =>
        split at hok
        case h_1 m hfind =>
          split at hok
          case h_1 l' hrec =>
            cases hok
            obtain ⟨idxs, hchain, hfa⟩ := ih (consume ptms m) (o :: rest) l' hrec
            refine ⟨0 :: idxs, ?_, ?_⟩
            · rw [List.chain'_cons']
              exact ⟨fun y _ => Nat.zero_le y, hchain⟩
            · exact List.Forall₂.cons rfl hfa
          case h_2 e he hne => exact absurd hok (hne l)
        case h_2 hfind =>
          obtain ⟨idxs, hchain, hfa⟩ := ih ptms rest l hok
          refine ⟨idxs.map (· + 1), ?_, ?_⟩
          · rw [List.chain'_map]
            exact hchain.imp (fun a b h => Nat.succ_le_succ h)
          · rw [List.forall₂_map_left_iff]
            exact hfa.imp (fun a b h => h)

/-- C9: the candidate list built by `fix_ptm` consists of exactly the
library patterns with a subgraph embedding into the residue
(`subgraph_is_isomorphic`), ordered by ascending pattern size; and on every
successful resolution the accepted patterns occupy non-decreasing positions
of the candidate list (the recursion only ever passes `options[idx:]`). -/
theorem resolver_candidates_spec :
    (∀ (residue : Agraph) (known : List Agraph) (p : Agraph),
       p ∈ candidatePtms residue known ↔ p ∈ known ∧ subgraphMatches residue p ≠ [])
    ∧ (∀ (residue : Agraph) (known : List Agraph),
        (candidatePtms residue known).Pairwise
          (fun a b => (nodeList a).length ≤ (nodeList b).length))
    ∧ (∀ (residue : Agraph) (fuel : ℕ) (ptms : List (Finset ℕ × Finset ℕ))
        (opts : List Agraph) (l : List (Agraph × List ℕ)),
        identify_ptms residue fuel ptms opts = .ok l →
        ∃ idxs : List ℕ, idxs.Chain' (· ≤ ·) ∧
          List.Forall₂ (fun i (pm : Agraph × List ℕ) => opts.get? i = some pm.1) idxs l) := by
  refine ⟨?_, ?_, fun residue fuel ptms opts l hok =>
    identify_ptms_indices residue fuel ptms opts l hok⟩
  · intro residue known p
    rw [candidatePtms, List.mem_mergeSort, allowed_ptms, List.mem_filter]
    constructor
    · rintro ⟨h1, h2⟩
      refine ⟨h1, fun hc => ?_⟩
      rw [hc] at h2
      simp at h2
    · rintro ⟨h1, h2⟩
      refine ⟨h1, ?_⟩
      cases hemp : (subgraphMatches residue p).isEmpty
      · simp
      · exact absurd (List.isEmpty_iff.1 hemp) h2
  · intro residue known
    have htrans : ∀ a b c : Agraph,
        decide ((nodeList a).length ≤ (nodeList b).length) = true →
        decide ((nodeList b).length ≤ (nodeList c).length) = true →
        decide ((nodeList a).length ≤ (nodeList c).length) = true := by
      intro a b c h1 h2
      exact decide_eq_true (Nat.le_trans (of_decide_eq_true h1) (of_decide_eq_true h2))
    have htotal : ∀ a b : Agraph,
        (decide ((nodeList a).length ≤ (nodeList b).length) ||
         decide ((nodeList b).length ≤ (nodeList a).length)) = true := by
      intro a b
      rcases Nat.le_total (nodeList a).length (nodeList b).length with h | h <;> simp [h]
    have hs := List.sorted_mergeSort htrans htotal (allowed_ptms residue known)
    rw [candidatePtms]
    exact hs.imp (fun h => of_decide_eq_true h)

/-- C9 witness: on `rChain4` both candidates are kept and sorted small
first; on the successful `rPair` run the accepted pattern sits at position
`0` of the candidate list. -/
theorem resolver_candidates_spec_witness :
    (patSmall ∈ candidatePtms rChain4 [patBig, patSmall] ↔
      patSmall ∈ [patBig, patSmall] ∧ subgraphMatches rChain4 patSmall ≠ [])
    ∧ (candidatePtms rChain4 [patBig, patSmall]).Pairwise
        (fun a b => (nodeList a).length ≤ (nodeList b).length)
    ∧ (∃ idxs : List ℕ, idxs.Chain' (· ≤ ·) ∧
        List.Forall₂ (fun i (pm : Agraph × List ℕ) => [patSmall].get? i = some pm.1)
          idxs [(patSmall, [0, 1])]) :=
  ⟨resolver_candidates_spec.1 rChain4 [patBig, patSmall] patSmall,
   resolver_candidates_spec.2.1 rChain4 [patBig, patSmall],
   resolver_candidates_spec.2.2 rPair 3 [({1}, {0})] [patSmall] [(patSmall, [0, 1])] (by rfl)⟩

/-! ### Claims C7/C8: the canonicalizer -/

theorem applyPair_attr_other (ptm g : Agraph) (pr : ℕ × ℕ) (i : ℕ) (h : i ≠ pr.1) :
    (applyPair ptm g pr).attr i = g.attr i := by
  rw [applyPair]
  split
  · simp [setAttr, h]
  · rfl

theorem applyPair_attr_self (ptm g : Agraph) (pr : ℕ × ℕ) :
    (applyPair ptm g pr).attr pr.1 =
      (if (ptm.attr pr.2).ptm || (ptm.attr pr.2).rename.isSome then
        { g.attr pr.1 with
            graphSnap := some (g.attr pr.1).atomname,
            atomname := (ptm.attr pr.2).rename.getD (ptm.attr pr.2).atomname }
       else g.attr pr.1) := by
  rw [applyPair]
  split
  case isTrue h => simp [setAttr]
  case isFalse h => rfl

theorem foldl_applyPair_untouched (ptm : Agraph) :
    ∀ (L : List (ℕ × ℕ)) (g : Agraph) (i : ℕ), i ∉ L.map Prod.fst →
      (L.foldl (applyPair ptm) g).attr i = g.attr i := by
  intro L
  induction L with
  | nil => intro g i _; rfl
  | cons pr L ihL =>
    intro g i hi
    simp only [List.map_cons, List.mem_cons, not_or] at hi
    rw [List.foldl_cons, ihL _ _ hi.2, applyPair_attr_other _ _ _ _ hi.1]

theorem foldl_applyPair_mapped (ptm : Agraph) :
    ∀ (L : List (ℕ × ℕ)) (g : Agraph) (i pi : ℕ), (L.map Prod.fst).Nodup →
      (i, pi) ∈ L →
      (L.foldl (applyPair ptm) g).attr i = (applyPair ptm g (i, pi)).attr i := by
  intro L
  induction L with
  | nil => intro g i pi _ hmem; simp at hmem
  | cons pr L ihL =>
    intro g i pi hnd hmem
    rw [List.map_cons, List.nodup_cons] at hnd
    rcases List.mem_cons.1 hmem with heq | hmem'
    · rw [← heq, List.foldl_cons]
      rw [← heq] at hnd
      exact foldl_applyPair_untouched ptm L _ i hnd.1
    · have hne : i ≠ pr.1 := by
        intro hc
        exact hnd.1 (hc ▸ List.mem_map_of_mem Prod.fst hmem')
      rw [List.foldl_cons, ihL _ _ _ hnd.2 hmem',
        applyPair_attr_self, applyPair_attr_self, applyPair_attr_other _ _ _ _ hne]

theorem foldl_applyPair_mods (ptm : Agraph) :
    ∀ (L : List (ℕ × ℕ)) (g : Agraph) (i : ℕ),
      ((L.foldl (applyPair ptm) g).attr i).modifications = ((g.attr i).modifications) := by
  intro L
  induction L with
  | nil => intro g i; rfl
  | cons pr L ihL =>
    intro g i
    rw [List.foldl_cons, ihL]
    by_cases h : i = pr.1
    · subst h
      rw [applyPair_attr_self]
      split <;> rfl
    · rw [applyPair_attr_other _ _ _ _ h]

theorem map_fst_zip_sublist {α β : Type} :
    ∀ (l1 : List α) (l2 : List β), ((l1.zip l2).map Prod.fst).Sublist l1 := by
  intro l1
  induction l1 with
  | nil => intro l2; simp
  | cons a l1 ih =>
    intro l2
    cases l2 with
    | nil => simp
    | cons b l2 => simpa using (ih l2).cons₂ a

/-- C7: for each mapped pair of an applied match, the molecule node's
`atomname` becomes the pattern node's `rename` if present, else its
`atomname`, exactly when the pattern node is flagged `PTM_atom=true` or
carries a `rename`, with the pre-rename context snapshotted in the
provenance attribute; mapped pairs satisfying neither condition, and
unmapped nodes, are untouched. -/
theorem canonicalizer_rename_spec (mol ptm : Agraph) (m : List ℕ) (hnd : m.Nodup) :
    (∀ pr ∈ m.zip (nodeList ptm),
       (((ptm.attr pr.2).ptm = true ∨ (ptm.attr pr.2).rename.isSome = true) →
          (applyMatch mol ptm m).attr pr.1 =
            { mol.attr pr.1 with
                graphSnap := some (mol.attr pr.1).atomname,
                atomname := (ptm.attr pr.2).rename.getD (ptm.attr pr.2).atomname })
       ∧ ((ptm.attr pr.2).ptm = false → (ptm.attr pr.2).rename.isSome = false →
          (applyMatch mol ptm m).attr pr.1 = mol.attr pr.1))
    ∧ (∀ i, i ∉ m → (applyMatch mol ptm m).attr i = mol.attr i) := by
  have hkeys : ((m.zip (nodeList ptm)).map Prod.fst).Nodup :=
    (map_fst_zip_sublist m (nodeList ptm)).nodup hnd
  constructor
  · intro pr hpr
    have hpr' : (pr.1, pr.2) ∈ m.zip (nodeList ptm) := hpr
    have hmain := foldl_applyPair_mapped ptm (m.zip (nodeList ptm)) mol pr.1 pr.2 hkeys hpr'
    constructor
    · intro hcond
      rw [applyMatch, hmain, applyPair_attr_self,
        if_pos (by rcases hcond with h | h <;> simp [h])]
    · intro h1 h2
      rw [applyMatch, hmain, applyPair_attr_self, if_neg (by simp [h1, h2])]
  · intro i hi
    have hnk : i ∉ (m.zip (nodeList ptm)).map Prod.fst := fun hc =>
      hi ((map_fst_zip_sublist m _).subset hc)
    rw [applyMatch]
    exact foldl_applyPair_untouched ptm _ mol i hnk

/-- C7 witness: applying the N-terminus match on `molN` renames `HN` to
`HN1` and snapshots its context, while the anchor `N` (pattern node
unflagged, no rename) and the unmapped backbone atom keep their attributes. -/
theorem canonicalizer_rename_spec_witness :
    (applyMatch molN n_term [0, 1, 2, 3]).attr 1 =
      { molN.attr 1 with
          graphSnap := some (molN.attr 1).atomname,
          atomname := (n_term.attr 1).rename.getD (n_term.attr 1).atomname }
    ∧ (applyMatch molN n_term [0, 1, 2, 3]).attr 0 = molN.attr 0
    ∧ (applyMatch molN n_term [0, 1, 2, 3]).attr 4 = molN.attr 4 :=
  ⟨((canonicalizer_rename_spec molN n_term [0, 1, 2, 3] (by decide)).1 (1, 1)
      (by decide)).1 (Or.inr (by decide)),
   ((canonicalizer_rename_spec molN n_term [0, 1, 2, 3] (by decide)).1 (0, 0)
      (by decide)).2 (by decide) (by decide),
   (canonicalizer_rename_spec molN n_term [0, 1, 2, 3] (by decide)).2 4 (by decide)⟩

theorem applyMatch_mods (g ptm : Agraph) (m : List ℕ) (i : ℕ) :
    ((applyMatch g ptm m).attr i).modifications = (g.attr i).modifications := by
  rw [applyMatch]
  exact foldl_applyPair_mods ptm _ g i

theorem appendMods_attr (nm : String) :
    ∀ (nIdxs : List ℕ) (g : Agraph) (n : ℕ), nIdxs.Nodup →
      ((appendMods g nIdxs nm).attr n).modifications =
        (g.attr n).modifications ++ (if n ∈ nIdxs then [nm] else []) := by
  intro nIdxs
  induction nIdxs with
  | nil => intro g n _; simp [appendMods]
  | cons j rest ih =>
    intro g n hnd
    rw [List.nodup_cons] at hnd
    rw [appendMods, List.foldl_cons]
    have hrec := ih (appendOne nm g j) n hnd.2
    rw [appendMods] at hrec
    rw [hrec]
    by_cases hj : n = j
    · subst hj
      rw [if_neg (fun hc => hnd.1 hc), if_pos (List.mem_cons_self _ _)]
      have : ((appendOne nm g n).attr n).modifications =
          (g.attr n).modifications ++ [nm] := by
        simp [appendOne, setAttr]
      rw [this, List.append_nil]
    · have : (appendOne nm g j).attr n = g.attr n := by
        simp [appendOne, setAttr, hj]
      rw [this]
      by_cases hr : n ∈ rest
      · rw [if_pos hr, if_pos (List.mem_cons_of_mem _ hr)]
      · rw [if_neg hr, if_neg (by
          intro hc
          rcases List.mem_cons.1 hc with h | h
          · exact hj h
          · exact hr h)]

/-- C8: after the canonicalizer processes a residue group, every node of
the group — matched or not — has each applied pattern appended to its
`modifications` list (created if absent), once per accepted match and in
application order. -/
theorem canonicalizer_audit_trail (mol : Agraph) (nIdxs : List ℕ)
    (identified : List (Agraph × List ℕ)) (n : ℕ) (hn : n ∈ nIdxs)
    (hnd : nIdxs.Nodup) :
    ((applyIdentified mol nIdxs identified).attr n).modifications =
      (mol.attr n).modifications ++ identified.map (fun pm => pm.1.gname) := by
  induction identified generalizing mol with
  | nil => simp [applyIdentified]
  | cons pm rest ih =>
    rw [applyIdentified, List.foldl_cons]
    have hrec := ih (appendMods (applyMatch mol pm.1 pm.2) nIdxs pm.1.gname)
    rw [applyIdentified] at hrec
    rw [hrec, appendMods_attr _ _ _ _ hnd, if_pos hn, applyMatch_mods]
    simp

/-- C8 witness: after applying the N-terminus match on `molN`, even the
unmatched backbone node `4` of the residue group records the applied
pattern in its `modifications` list. -/
theorem canonicalizer_audit_trail_witness :
    ((applyIdentified molN [0, 1, 2, 3, 4] [(n_term, [0, 1, 2, 3])]).attr 4).modifications =
      (molN.attr 4).modifications ++ ["N-terminus"] :=
  canonicalizer_audit_trail molN [0, 1, 2, 3, 4] [(n_term, [0, 1, 2, 3])] 4
    (by decide) (by decide)

/-! ### Claims C3/C10: the island locator -/

theorem nbrs_subset_nodeList (g : Agraph) (u : ℕ) : ∀ v ∈ nbrs g u, v ∈ nodeList g := by
  intro v hv
  rw [nbrs, mem_dedupF] at hv
  obtain ⟨hv, -⟩ := hv
  rw [List.mem_filterMap] at hv
  obtain ⟨e, he, hfe⟩ := hv
  rw [nodeList, mem_dedupF]
  refine ⟨List.mem_append_right _ ?_, List.not_mem_nil _⟩
  rw [List.mem_flatMap]
  refine ⟨e, he, ?_⟩
  split at hfe
  · cases hfe; simp
  · split at hfe
    · cases hfe; simp
    · cases hfe

theorem bfsAux_nil_queue (g : Agraph) : ∀ (fuel : ℕ) (vis : List ℕ),
    bfsAux g fuel [] vis = [] := by
  intro fuel vis
  cases fuel <;> rfl

/-- Either the traversal from `s` has no tree edge and `bfs_successors`
consists of the single degenerate pair `(s, [])`, or its first emitted pair
is `s` with a non-empty children list. -/
theorem bfs_successors_cases (g : Agraph) (s : ℕ) (hs : s ∈ nodeList g) :
    bfs_successors g s = [(s, [])] ∨
    ∃ ch tail, bfs_successors g s = (s, ch) :: tail ∧ ch ≠ [] := by
  obtain ⟨k, hk⟩ : ∃ k, (nodeList g).length = k + 1 := by
    cases hnl : (nodeList g).length with
    | zero =>
      rw [List.length_eq_zero] at hnl
      rw [hnl] at hs
      simp at hs
    | succ k => exact ⟨k, rfl⟩
  by_cases hch : ((nbrs g s).filter (fun w => decide (w ∉ [s]))) = []
  · left
    have hnil : bfsAux g (k + 1) [s] [s] = [] := by
      simp only [bfsAux]
      rw [if_pos (by rw [hch]; rfl), hch, List.append_nil, List.append_nil]
      exact bfsAux_nil_queue g k [s]
    rw [bfs_successors, hk, hnil]
  · right
    have hstep : bfsAux g (k + 1) [s] [s] =
        (s, (nbrs g s).filter (fun w => decide (w ∉ [s]))) ::
          bfsAux g k ([] ++ (nbrs g s).filter (fun w => decide (w ∉ [s])))
            ([s] ++ (nbrs g s).filter (fun w => decide (w ∉ [s]))) := by
      simp only [bfsAux]
      rw [if_neg (fun hc => hch (List.isEmpty_iff.1 hc))]
    rw [bfs_successors, hk, hstep]
    exact ⟨_, _, rfl, hch⟩

theorem islandGo_atoms_mono (g : Agraph) (extra : List ℕ) :
    ∀ (succs : List (ℕ × List ℕ)) (ts atoms anchors : List ℕ) (res : List ℕ × List ℕ),
      islandGo g extra succs ts atoms anchors = .ok res → ∀ x ∈ atoms, x ∈ res.1 := by
  intro succs
  induction succs with
  | nil =>
    intro ts atoms anchors res hok x hx
    simp only [islandGo] at hok
    cases hok
    exact hx
  | cons p rest ih =>
    intro ts atoms anchors res hok x hx
    obtain ⟨orig, succ⟩ := p
    simp only [islandGo] at hok
    split at hok
    case isTrue h1 =>
      split at hok
      case isTrue h2 =>
        split at hok
        case isTrue h3 => cases hok; exact List.mem_append_left _ hx
        case isFalse h3 => exact ih _ _ _ _ hok x (List.mem_append_left _ hx)
      case isFalse h2 =>
        split at hok
        case isTrue h3 => cases hok; exact hx
        case isFalse h3 => exact ih _ _ _ _ hok x hx
    case isFalse h1 => simp at hok

theorem islandGo_seed (g : Agraph) (extra : List ℕ) (s : ℕ) (ch : List ℕ)
    (tail : List (ℕ × List ℕ)) (hch : ch ≠ []) (hs : s ∈ extra) :
    (∃ res, islandGo g extra ((s, ch) :: tail) [s] [] [] = .ok res ∧ s ∈ res.1) ∨
    (islandGo g extra ((s, ch) :: tail) [s] [] [] = .error ()) := by
  have e1 : ([s] : List ℕ).erase s = [] := List.erase_cons_head s []
  have e2 : ch.filter (fun v => decide (v ∉ ([] : List ℕ))) = ch := by
    apply List.filter_eq_self.2
    intro a _
    simp
  have hisEmpty : ch.isEmpty = false := by
    cases ch
    · exact absurd rfl hch
    · rfl
  have hstep : islandGo g extra ((s, ch) :: tail) [s] [] [] =
      islandGo g extra tail ch [s] [] := by
    simp only [islandGo]
    rw [if_pos (List.mem_cons_self s []), if_pos hs, e1, List.nil_append, e2,
      if_neg (by simp [hisEmpty])]
    rw [List.nil_append]
  cases hres : islandGo g extra tail ch [s] [] with
  | ok res =>
    exact Or.inl ⟨res, by rw [hstep, hres],
      islandGo_atoms_mono g extra tail ch [s] [] res hres s (List.mem_cons_self s [])⟩
  | error e =>
    cases e
    exact Or.inr (by rw [hstep, hres])

/-- When the traversal from the seed has no tree edge, the island step
collects exactly the seed, with no anchors. -/
theorem islandGo_lone (g : Agraph) (extra : List ℕ) (s : ℕ) (hs : s ∈ extra) :
    islandGo g extra [(s, [])] [s] [] [] = .ok ([s], []) := by
  simp only [islandGo]
  rw [if_pos (List.mem_cons_self s []), if_pos hs, List.erase_cons_head]
  simp

theorem findGo_isSome (g : Agraph) :
    ∀ (fuel : ℕ) (extra : List ℕ), extra.length < fuel →
      (∀ u ∈ extra, u ∈ nodeList g) →
      (findGo g fuel extra).isSome = true := by
  intro fuel
  induction fuel with
  | zero => intro extra h _; exact absurd h (Nat.not_lt_zero _)
  | succ fuel ih =>
    intro extra hlen hprop
    cases extra with
    | nil => rfl
    | cons s rest =>
      have hs : s ∈ nodeList g := hprop s (List.mem_cons_self _ _)
      have hseed : (∃ ats ancs,
          islandGo g (s :: rest) (bfs_successors g s) [s] [] [] = .ok (ats, ancs) ∧
            s ∈ ats) ∨
          islandGo g (s :: rest) (bfs_successors g s) [s] [] [] = .error () := by
        rcases bfs_successors_cases g s hs with hb | ⟨ch, tail, hb, hch⟩
        · rw [hb, islandGo_lone g (s :: rest) s (List.mem_cons_self _ _)]
          exact Or.inl ⟨[s], [], rfl, List.mem_cons_self _ _⟩
        · rw [hb]
          rcases islandGo_seed g (s :: rest) s ch tail hch (List.mem_cons_self _ _) with
            ⟨⟨ats, ancs⟩, hok, hsr⟩ | herr
          · exact Or.inl ⟨ats, ancs, hok, hsr⟩
          · exact Or.inr herr
      rcases hseed with ⟨ats, ancs, hok, hsres⟩ | herr
      · have hred : findGo g (fuel + 1) (s :: rest) =
            (match findGo g fuel ((s :: rest).filter (fun w => decide (w ∉ ats))) with
             | none => none
             | some (.error e) => some (.error e)
             | some (.ok rest') => some (.ok ((ats, ancs) :: rest'))) := by
          simp only [findGo]
          rw [hok]
        have hfil : (s :: rest).filter (fun w => decide (w ∉ ats)) =
            rest.filter (fun w => decide (w ∉ ats)) := by
          rw [List.filter_cons]
          rw [if_neg (by simp [hsres])]
        have hlen' : ((s :: rest).filter (fun w => decide (w ∉ ats))).length < fuel := by
          rw [hfil]
          exact Nat.lt_of_le_of_lt (List.length_filter_le _ _)
            (Nat.lt_of_succ_lt_succ hlen)
        have hprop' : ∀ u ∈ (s :: rest).filter (fun w => decide (w ∉ ats)),
            u ∈ nodeList g := fun u hu => hprop u (List.mem_of_mem_filter hu)
        have hrec := ih _ hlen' hprop'
        rw [hred]
        rcases Option.isSome_iff_exists.1 hrec with ⟨x, hx⟩
        rw [hx]
        cases x <;> rfl
      · have hred : findGo g (fuel + 1) (s :: rest) = some (.error ()) := by
          simp only [findGo]
          rw [herr]
        rw [hred]
        rfl

/-- C10: `find_PTM_atoms` terminates — with fuel exceeding the flagged-node
count, the `while` loop finishes (normally, or by the `KeyError` escape) —
for every molecule in which each flagged node has at least one neighbour:
every iteration of the outer loop removes at least the chosen seed from the
remaining flagged-node set, because `nx.bfs_successors` always yields its
seed (paired with its children, or with `[]` via the generator's
unconditional final yield when no tree edge exists), so the seed always
lands in the collected atoms. -/
theorem find_PTM_atoms_terminates (g : Agraph)
    (_hnbr : ∀ u ∈ (nodeList g).filter (fun n => (g.attr n).ptm), nbrs g u ≠ [])
    (fuel : ℕ)
    (hfuel : ((nodeList g).filter (fun n => (g.attr n).ptm)).length < fuel) :
    (find_PTM_atoms g fuel).isSome = true := by
  rw [find_PTM_atoms]
  exact findGo_isSome g fuel _ hfuel (fun u hu => List.mem_of_mem_filter hu)

/-- C10 witness: on `molLoop` the only flagged node has a neighbour
(itself, through its self-loop) and the locator finishes within
flagged-count + 1 rounds, collecting the island `({7}, ∅)`. -/
theorem find_PTM_atoms_terminates_witness :
    (find_PTM_atoms molLoop 2).isSome = true :=
  find_PTM_atoms_terminates molLoop (by decide) 2 (by decide)

/-- C3: on the molecule `molChain` (unflagged atom `0` bonded to the
flagged pair `1 - 2`), `find_PTM_atoms` returns the island `({1}, ∅)` —
missing its anchor `0` — and the island `({2}, {1})`, whose anchor `1` is
itself a flagged PTM atom, although `0` is unflagged and `1` is flagged:
the code contradicts its own docstring ("the anchor node is the node(s)
which are not PTM atoms") and the claim's anchor condition, because
`nx.bfs_successors` yields no pair for non-seed leaf nodes, so flagged
BFS-leaves are dropped from the island that discovered them. -/
theorem find_PTM_atoms_flagged_anchor_bug :
    find_PTM_atoms molChain 3 = some (.ok [([1], []), ([2], [1])]) ∧
    (molChain.attr 1).ptm = true ∧ (molChain.attr 0).ptm = false :=
  ⟨rfl, rfl, rfl⟩

end Martinize
